import Mathlib

/-!
# Johnson's Gambit (code.js) and Security Gate SG1 (strings.js)

A shallow embedding of the two browser scripts and the properties their
specification states about them.

## How JavaScript values are held

* A JavaScript number is a `JSNum`: `NaN`, `+Infinity` / `-Infinity`, or a finite
  value held as the exact rational it denotes.  The arithmetic operators round
  their exact result to binary64 with `roundDouble` (round to nearest, ties to
  even, gradual underflow, overflow to infinity).  The two zeros are identified
  (as `===`, `<` and `>=` identify them) and taken as `+0`.
* The two counters `totalRounds` and `totalWins` are JavaScript numbers like any
  other: they start at `0`, and `+= 1` is the binary64 addition `jsAdd`, which is
  exact below `2 ^ 53` and leaves `2 ^ 53` unchanged.
* A JavaScript string is the list of its UTF-16 code units (`JSString`); its
  `.length` is the length of that list.
* What a handler writes into the page with `innerHTML` is held as a value that
  names the message and the data interpolated into it, not as HTML text.
* `Number(text)` and `Math.random()` belong to the host.  The handlers receive
  the numbers these calls return: `Number("10")` is `10`, `Number("")` is `0`
  and `Number("abc")` is `NaN`.
-/

namespace Monty

/-! ## JavaScript numbers -/

/-- A JavaScript number: `NaN`, an infinity with its sign, or a finite value. -/
inductive JSNum
  | nan
  | inf (neg : Bool)
  | fin (q : ℚ)
deriving DecidableEq

/-- Round a rational to the nearest integer, ties to the even one. -/
def rne (x : ℚ) : ℤ :=
  let f := ⌊x⌋
  if 2 * (x - f) < 1 then f
  else if 1 < 2 * (x - f) then f + 1
  else if f % 2 = 0 then f else f + 1

/-- Halve `n` until it is below `2`, counting the steps (at most `fuel` of them). -/
def log2Aux : ℕ → ℕ → ℕ
  | 0, _ => 0
  | fuel + 1, n => if 2 ≤ n then log2Aux fuel (n / 2) + 1 else 0

/-- The position of the leading bit of `n`: `2 ^ log2Floor n ≤ n < 2 ^ (log2Floor n + 1)`. -/
def log2Floor (n : ℕ) : ℕ := log2Aux n n

/-- The binary exponent `e` of a non-zero rational: `2 ^ e ≤ |x| < 2 ^ (e + 1)`. -/
def binade (x : ℚ) : ℤ :=
  let e0 : ℤ := (log2Floor x.num.natAbs : ℤ) - (log2Floor x.den : ℤ)
  if (2 : ℚ) ^ e0 ≤ |x| then e0 else e0 - 1

/-- The spacing of the binary64 values around `x`: 53 significant bits, and the
exponent no lower than `-1022` (subnormals). -/
def ulp (x : ℚ) : ℚ := 2 ^ (max (binade x) (-1022) - 52)

/-- The binary64 value nearest to the rational `x`: the nearest multiple of the
spacing, ties to the even multiple, and infinity from `2 ^ 1024` on. -/
def roundDouble (x : ℚ) : JSNum :=
  if x = 0 then .fin 0 else
  let y : ℚ := (rne (x / ulp x) : ℚ) * ulp x
  if (2 : ℚ) ^ (1024 : ℤ) ≤ |y| then .inf (decide (x < 0)) else .fin y

/-- A rational is a binary64 value when rounding leaves it unchanged. -/
def isDouble (q : ℚ) : Prop := roundDouble q = .fin q

instance (q : ℚ) : Decidable (isDouble q) := by
  unfold isDouble; infer_instance

/-- The operator `a < b`. -/
def jsLt : JSNum → JSNum → Bool
  | .nan, _ => false
  | _, .nan => false
  | .inf true, .inf true => false
  | .inf true, _ => true
  | _, .inf true => false
  | .inf false, _ => false
  | .fin _, .inf false => true
  | .fin p, .fin q => decide (p < q)

/-- The operator `a >= b`. -/
def jsGe : JSNum → JSNum → Bool
  | .nan, _ => false
  | _, .nan => false
  | a, b => !jsLt a b

/-- The operator `a === b` on numbers. -/
def jsStrictEq : JSNum → JSNum → Bool
  | .nan, _ => false
  | _, .nan => false
  | a, b => decide (a = b)

/-- Unary minus. -/
def jsNeg : JSNum → JSNum
  | .nan => .nan
  | .inf s => .inf (!s)
  | .fin q => .fin (-q)

/-- The operator `a * b`. -/
def jsMul : JSNum → JSNum → JSNum
  | .nan, _ => .nan
  | _, .nan => .nan
  | .inf s, .inf t => .inf (s != t)
  | .inf s, .fin q => if q = 0 then .nan else .inf (s != decide (q < 0))
  | .fin p, .inf t => if p = 0 then .nan else .inf (decide (p < 0) != t)
  | .fin p, .fin q => roundDouble (p * q)

/-- The operator `a / b` (a zero divisor is `+0`). -/
def jsDiv : JSNum → JSNum → JSNum
  | .nan, _ => .nan
  | _, .nan => .nan
  | .inf _, .inf _ => .nan
  | .inf s, .fin q => .inf (s != decide (q < 0))
  | .fin _, .inf _ => .fin 0
  | .fin p, .fin q =>
    if q = 0 then (if p = 0 then .nan else .inf (decide (p < 0)))
    else roundDouble (p / q)

/-- The operator `a + b`. -/
def jsAdd : JSNum → JSNum → JSNum
  | .nan, _ => .nan
  | _, .nan => .nan
  | .inf s, .inf t => if s = t then .inf s else .nan
  | .inf s, .fin _ => .inf s
  | .fin _, .inf t => .inf t
  | .fin p, .fin q => roundDouble (p + q)

/-- The function `Math.floor`. -/
def mathFloor : JSNum → JSNum
  | .fin q => .fin (⌊q⌋ : ℤ)
  | a => a

/-- The function `Math.round`: the nearest integer, halves towards `+Infinity`. -/
def mathRound : JSNum → JSNum
  | .fin q => .fin (⌊q + 1 / 2⌋ : ℤ)
  | a => a

/-- The operator `a > b`. -/
def jsGt (a b : JSNum) : Bool := jsLt b a

/-! ## code.js -/

/-- The globals `totalRounds` and `totalWins`. -/
structure Stats where
  totalRounds : JSNum
  totalWins : JSNum
deriving DecidableEq

/-- The state when the script loads: `totalRounds = 0`, `totalWins = 0`. -/
def initialStats : Stats := ⟨.fin 0, .fin 0⟩

/-- The function `getHandName`: the label of a hand number. -/
def getHandName (handNumber : JSNum) : String :=
  if jsStrictEq handNumber (.fin 1) then "Left Hand 🖐"
  else if jsStrictEq handNumber (.fin 2) then "Middle Hand ✋"
  else if jsStrictEq handNumber (.fin 3) then "Right Hand 🤚"
  else "Unknown Hand"

/-- What `updateStatsDisplay` writes into `statsArea`. -/
structure StatsDisplay where
  roundsPlayed : JSNum
  roundsWon : JSNum
  winRate : JSNum
deriving DecidableEq

/-- The function `updateStatsDisplay`: the win rate is `0` until a round has been
played, then `Math.round((totalWins / totalRounds) * 100)`. -/
def updateStatsDisplay (s : Stats) : StatsDisplay :=
  let winRate : JSNum :=
    if jsGt s.totalRounds (.fin 0) then
      mathRound (jsMul (jsDiv s.totalWins s.totalRounds) (.fin 100))
    else .fin 0
  ⟨s.totalRounds, s.totalWins, winRate⟩

/-- What `playMonty` reads from the form: the checked `hand` radio button, if
any, with the number `Number(selectedHandInput.value)` gives for it, and
`Number(wagerInput.value)`. -/
structure FormInput where
  selectedHand : Option JSNum
  wagerAmount : JSNum
deriving DecidableEq

/-- The body of a resolved round as written into `resultArea`. -/
structure RoundResult where
  playerHand : JSNum
  winningHand : JSNum
  playerWon : Bool
  wagerAmount : JSNum
  payout : JSNum
  playerHandName : String
  winningHandName : String
  stats : StatsDisplay
deriving DecidableEq

/-- What one submission writes into the page. -/
inductive Shown
  | chooseHandError
  | negativeWagerError
  | round (r : RoundResult)
deriving DecidableEq

/-- The winning hand for the value `Math.random()` returned:
`Math.floor(Math.random() * 3) + 1`. -/
def winningHandOf (random : JSNum) : JSNum :=
  jsAdd (mathFloor (jsMul random (.fin 3))) (.fin 1)

/-- The function `playMonty`: one form submission, from the statistics before it,
the form and the value `Math.random()` returns if the round is played, to what is
shown and the statistics after it. -/
def playMonty (s : Stats) (form : FormInput) (random : JSNum) : Shown × Stats :=
  let wagerAmount := form.wagerAmount
  match form.selectedHand with
  | none => (.chooseHandError, s)
  | some handValue =>
    if jsLt wagerAmount (.fin 0) then (.negativeWagerError, s)
    else
      let playerHand := handValue
      let winningHand := winningHandOf random
      let playerWon := jsStrictEq playerHand winningHand
      let payout := if playerWon then jsMul wagerAmount (.fin 2) else jsNeg wagerAmount
      let s1 : Stats := { s with totalRounds := jsAdd s.totalRounds (.fin 1) }
      let s2 : Stats :=
        if playerWon then { s1 with totalWins := jsAdd s1.totalWins (.fin 1) } else s1
      (.round ⟨playerHand, winningHand, playerWon, wagerAmount, payout,
          getHandName playerHand, getHandName winningHand, updateStatsDisplay s2⟩, s2)

/-- The statistics after a sequence of submissions, each with its random value. -/
def playAll (s : Stats) : List (FormInput × JSNum) → Stats
  | [] => s
  | (form, random) :: rest => playAll (playMonty s form random).2 rest

/-- The counters hold whole numbers, `totalWins` at most `totalRounds`, at most
`2 ^ 53`. -/
def CountersOk (s : Stats) : Prop :=
  ∃ n m : ℕ, s.totalRounds = .fin (n : ℚ) ∧ s.totalWins = .fin (m : ℚ) ∧ m ≤ n ∧ n ≤ 2 ^ 53

end Monty

namespace Gate

/-! ## strings.js -/

/-- A JavaScript string: its UTF-16 code units. -/
abbrev JSString := List ℕ

/-- The terms the ZIP pattern is built from: the assertions `^` and `$`, and the
class `\d` under a counted quantifier `{count}`. -/
inductive RegexTerm
  | inputStart
  | inputEnd
  | digits (count : ℕ)
deriving DecidableEq

/-- The class `\d`: the code units of `0` to `9`. -/
def isDigitUnit (c : ℕ) : Bool := decide (48 ≤ c) && decide (c ≤ 57)

/-- Consume exactly `count` digits from `rest`, which starts at position `index`:
the position and the input after them, or `none` when a digit is missing. -/
def takeDigits : ℕ → ℕ → JSString → Option (ℕ × JSString)
  | 0, index, rest => some (index, rest)
  | _ + 1, _, [] => none
  | n + 1, index, c :: cs => if isDigitUnit c then takeDigits n (index + 1) cs else none

/-- Match the terms in sequence at the position `index`, where `rest` is the
input from that position on. -/
def matchHere : List RegexTerm → ℕ → JSString → Bool
  | [], _, _ => true
  | .inputStart :: ts, index, rest => index == 0 && matchHere ts index rest
  | .inputEnd :: ts, index, rest => rest.isEmpty && matchHere ts index rest
  | .digits n :: ts, index, rest =>
    match takeDigits n index rest with
    | none => false
    | some (next, after) => matchHere ts next after

/-- Look for a match starting at `index` or at any later position. -/
def regexSearch (pattern : List RegexTerm) : ℕ → JSString → Bool
  | index, [] => matchHere pattern index []
  | index, c :: cs => matchHere pattern index (c :: cs) || regexSearch pattern (index + 1) cs

/-- The method `RegExp.prototype.test` of a pattern without flags. -/
def regexTest (pattern : List RegexTerm) (input : JSString) : Bool :=
  regexSearch pattern 0 input

/-- The pattern `/^\d{5}$/`. -/
def zipPattern : List RegexTerm := [.inputStart, .digits 5, .inputEnd]

/-- The function `isFiveDigitZip`. -/
def isFiveDigitZip (zipString : JSString) : Bool := regexTest zipPattern zipString

/-- The code units `String.prototype.trim` removes: white space and line
terminators. -/
def isTrimUnit (c : ℕ) : Bool :=
  c == 9 || c == 10 || c == 11 || c == 12 || c == 13 || c == 32 || c == 160 ||
  c == 5760 || (decide (8192 ≤ c) && decide (c ≤ 8202)) || c == 8232 || c == 8233 ||
  c == 8239 || c == 8287 || c == 12288 || c == 65279

/-- The method `String.prototype.trim`. -/
def jsTrim (s : JSString) : JSString :=
  ((s.dropWhile isTrimUnit).reverse.dropWhile isTrimUnit).reverse

/-- What `handleSecurityForm` writes into `messageArea`. -/
inductive GateMessage
  | namesMissing
  | nameTooLong (length : ℕ)
  | zipInvalid
  | secret (fullName zipCode : JSString)
deriving DecidableEq

/-- The function `handleSecurityForm`, from the values of the three inputs. -/
def handleSecurityForm (firstNameValue lastNameValue zipValue : JSString) : GateMessage :=
  let firstName := jsTrim firstNameValue
  let lastName := jsTrim lastNameValue
  let zipCode := jsTrim zipValue
  let fullName := firstName ++ [32] ++ lastName
  if firstName.length == 0 || lastName.length == 0 then .namesMissing
  else if fullName.length > 20 then .nameTooLong fullName.length
  else
    let zipIsValid := isFiveDigitZip zipCode
    if !zipIsValid then .zipInvalid
    else .secret fullName zipCode

end Gate

namespace Monty

/-! ## Facts about rounding to binary64 -/

theorem log2Aux_spec : ∀ fuel n, n ≤ fuel → n ≠ 0 →
    2 ^ log2Aux fuel n ≤ n ∧ n < 2 ^ (log2Aux fuel n + 1) := by
  intro fuel
  induction fuel with
  | zero => intro n h h0; omega
  | succ f ih =>
    intro n h h0
    unfold log2Aux
    split_ifs with h2
    · obtain ⟨a, b⟩ := ih (n / 2) (by omega) (by omega)
      constructor
      · rw [pow_succ]; omega
      · rw [pow_succ]; omega
    · simp; omega

theorem log2Floor_spec (n : ℕ) (h0 : n ≠ 0) :
    2 ^ log2Floor n ≤ n ∧ n < 2 ^ (log2Floor n + 1) :=
  log2Aux_spec n n le_rfl h0

theorem log2Floor_cast (n : ℕ) (h0 : n ≠ 0) :
    (2 : ℚ) ^ (log2Floor n : ℤ) ≤ n ∧ (n : ℚ) < 2 ^ ((log2Floor n : ℤ) + 1) := by
  obtain ⟨a, b⟩ := log2Floor_spec n h0
  constructor
  · rw [zpow_natCast]; exact_mod_cast a
  · have : ((log2Floor n : ℤ) + 1) = ((log2Floor n + 1 : ℕ) : ℤ) := by push_cast; ring
    rw [this, zpow_natCast]; exact_mod_cast b

theorem abs_eq_natAbs_div_den (x : ℚ) : |x| = (x.num.natAbs : ℚ) / (x.den : ℚ) := by
  have hd : (0 : ℚ) < x.den := by exact_mod_cast x.den_pos
  conv_lhs => rw [← Rat.num_div_den x]
  rw [abs_div, abs_of_pos hd, Nat.cast_natAbs, Int.cast_abs]

/-- The exponent `binade` finds brackets the value. -/
theorem binade_spec (x : ℚ) (hx : x ≠ 0) :
    (2 : ℚ) ^ binade x ≤ |x| ∧ |x| < 2 ^ (binade x + 1) := by
  have hn : x.num.natAbs ≠ 0 := by
    simpa [Int.natAbs_eq_zero] using hx
  have hd : x.den ≠ 0 := x.den_nz
  obtain ⟨n1, n2⟩ := log2Floor_cast _ hn
  obtain ⟨d1, d2⟩ := log2Floor_cast _ hd
  have hdpos : (0 : ℚ) < x.den := by exact_mod_cast x.den_pos
  have habs := abs_eq_natAbs_div_den x
  have p1 : (0 : ℚ) < 2 ^ (log2Floor x.den : ℤ) := by positivity
  have p2 : (0 : ℚ) < 2 ^ ((log2Floor x.den : ℤ) + 1) := by positivity
  unfold binade
  simp only
  split_ifs with h
  · refine ⟨h, ?_⟩
    have e : (2 : ℚ) ^ ((log2Floor x.num.natAbs : ℤ) - (log2Floor x.den : ℤ) + 1)
        = 2 ^ ((log2Floor x.num.natAbs : ℤ) + 1) / 2 ^ (log2Floor x.den : ℤ) := by
      rw [← zpow_sub₀ (two_ne_zero)]; congr 1; ring
    rw [e, habs, div_lt_div_iff₀ hdpos p1]
    calc (x.num.natAbs : ℚ) * 2 ^ (log2Floor x.den : ℤ)
        ≤ x.num.natAbs * x.den := by gcongr
      _ < 2 ^ ((log2Floor x.num.natAbs : ℤ) + 1) * x.den := by gcongr
  · refine ⟨?_, ?_⟩
    · have e : (2 : ℚ) ^ ((log2Floor x.num.natAbs : ℤ) - (log2Floor x.den : ℤ) - 1)
          = 2 ^ (log2Floor x.num.natAbs : ℤ) / 2 ^ ((log2Floor x.den : ℤ) + 1) := by
        rw [← zpow_sub₀ (two_ne_zero)]; congr 1; ring
      rw [e, habs, div_le_div_iff₀ p2 hdpos]
      calc (2 : ℚ) ^ (log2Floor x.num.natAbs : ℤ) * x.den
          ≤ x.num.natAbs * x.den := by gcongr
        _ ≤ x.num.natAbs * 2 ^ ((log2Floor x.den : ℤ) + 1) := by gcongr
    · have : ((log2Floor x.num.natAbs : ℤ) - (log2Floor x.den : ℤ) - 1 + 1)
          = (log2Floor x.num.natAbs : ℤ) - (log2Floor x.den : ℤ) := by ring
      rw [this]
      exact lt_of_not_le h

/-- The exponent is determined by the bracket. -/
theorem binade_unique (x : ℚ) (e : ℤ) (h1 : (2 : ℚ) ^ e ≤ |x|) (h2 : |x| < 2 ^ (e + 1)) :
    binade x = e := by
  have hx : x ≠ 0 := by
    rintro rfl
    have : (0 : ℚ) < 2 ^ e := by positivity
    simp at h1
    linarith
  obtain ⟨b1, b2⟩ := binade_spec x hx
  have two : (1 : ℚ) < 2 := by norm_num
  have a1 : e < binade x + 1 := (zpow_lt_zpow_iff_right₀ two).1 (lt_of_le_of_lt h1 b2)
  have a2 : binade x < e + 1 := (zpow_lt_zpow_iff_right₀ two).1 (lt_of_le_of_lt b1 h2)
  omega

theorem rne_cases (x : ℚ) : rne x = ⌊x⌋ ∨ rne x = ⌊x⌋ + 1 := by
  unfold rne
  simp only
  split_ifs <;> simp

/-- Rounding to an integer moves a value by at most one half. -/
theorem rne_abs_sub_le (x : ℚ) : |(rne x : ℚ) - x| ≤ 1 / 2 := by
  have h1 := Int.floor_le x
  have h2 := Int.lt_floor_add_one x
  unfold rne
  simp only
  rw [abs_le]
  split_ifs with a b c
  · constructor <;> linarith
  · push_cast; constructor <;> linarith
  · constructor <;> linarith
  · push_cast; constructor <;> linarith

/-- An integer rounds to itself. -/
theorem rne_intCast (n : ℤ) : rne (n : ℚ) = n := by
  unfold rne
  simp

theorem rne_nonneg (x : ℚ) (hx : 0 ≤ x) : 0 ≤ rne x := by
  have h : 0 ≤ ⌊x⌋ := Int.floor_nonneg.2 hx
  rcases rne_cases x with e | e <;> omega

theorem ulp_pos (x : ℚ) : 0 < ulp x := by
  unfold ulp; positivity

/-- The nearest multiple of the spacing is within half the spacing. -/
theorem round_error (x : ℚ) : |(rne (x / ulp x) : ℚ) * ulp x - x| ≤ ulp x / 2 := by
  have hu := ulp_pos x
  have h := rne_abs_sub_le (x / ulp x)
  have e : (rne (x / ulp x) : ℚ) * ulp x - x = ((rne (x / ulp x) : ℚ) - x / ulp x) * ulp x := by
    field_simp
  rw [e, abs_mul, abs_of_pos hu]
  calc |(rne (x / ulp x) : ℚ) - x / ulp x| * ulp x ≤ 1 / 2 * ulp x := by gcongr
    _ = ulp x / 2 := by ring

/-- What `roundDouble` returns away from zero. -/
theorem roundDouble_of_lt (x : ℚ) (hx : x ≠ 0)
    (h : |(rne (x / ulp x) : ℚ) * ulp x| < 2 ^ (1024 : ℤ)) :
    roundDouble x = .fin ((rne (x / ulp x) : ℚ) * ulp x) := by
  simp [roundDouble, hx, not_le.2 h]

theorem binade_le (x : ℚ) (hx : x ≠ 0) (e : ℤ) (h : |x| < 2 ^ (e + 1)) : binade x ≤ e := by
  have b1 := (binade_spec x hx).1
  have two : (1 : ℚ) < 2 := by norm_num
  have := (zpow_lt_zpow_iff_right₀ two).1 (lt_of_le_of_lt b1 h)
  omega

theorem le_binade (x : ℚ) (hx : x ≠ 0) (e : ℤ) (h : 2 ^ e ≤ |x|) : e ≤ binade x := by
  have b2 := (binade_spec x hx).2
  have two : (1 : ℚ) < 2 := by norm_num
  have := (zpow_lt_zpow_iff_right₀ two).1 (lt_of_le_of_lt h b2)
  omega

/-- The spacing below `2 ^ (e + 1)` is at most `2 ^ (e - 52)`. -/
theorem ulp_le (x : ℚ) (hx : x ≠ 0) (e : ℤ) (he : -1022 ≤ e) (h : |x| < 2 ^ (e + 1)) :
    ulp x ≤ 2 ^ (e - 52) := by
  have hb := binade_le x hx e h
  unfold ulp
  apply zpow_le_zpow_right₀ (by norm_num)
  have : max (binade x) (-1022) ≤ e := max_le hb he
  omega

/-- In the normal range the spacing is at most `2 ^ (-52)` times the value. -/
theorem ulp_le_mul (x : ℚ) (h : 2 ^ (-1022 : ℤ) ≤ |x|) : ulp x ≤ 2 ^ (-52 : ℤ) * |x| := by
  have hx : x ≠ 0 := by
    rintro rfl
    have : (0 : ℚ) < 2 ^ (-1022 : ℤ) := by positivity
    simp at h
    linarith
  have hb := le_binade x hx _ h
  have b1 := (binade_spec x hx).1
  unfold ulp
  rw [max_eq_left hb, zpow_sub₀ (two_ne_zero), div_eq_mul_inv, ← zpow_neg, mul_comm]
  gcongr

/-- In the normal range rounding returns a finite value within a relative error
of `2 ^ (-53)`. -/
theorem roundDouble_normal (x : ℚ) (h1 : 2 ^ (-1022 : ℤ) ≤ |x|) (h2 : |x| ≤ 2 ^ (1023 : ℤ)) :
    ∃ y : ℚ, roundDouble x = .fin y ∧ |y - x| ≤ 2 ^ (-53 : ℤ) * |x| := by
  have hx : x ≠ 0 := by
    rintro rfl
    have : (0 : ℚ) < 2 ^ (-1022 : ℤ) := by positivity
    simp at h1
    linarith
  have hu := ulp_le_mul x h1
  have he := round_error x
  have hb : |(rne (x / ulp x) : ℚ) * ulp x - x| ≤ 2 ^ (-53 : ℤ) * |x| := by
    calc |(rne (x / ulp x) : ℚ) * ulp x - x| ≤ ulp x / 2 := he
      _ ≤ (2 ^ (-52 : ℤ) * |x|) / 2 := by gcongr
      _ = 2 ^ (-53 : ℤ) * |x| := by
        have : (2 : ℚ) ^ (-52 : ℤ) = 2 * 2 ^ (-53 : ℤ) := by
          rw [show (-52 : ℤ) = 1 + (-53) by norm_num, zpow_add₀ (two_ne_zero)]; norm_num
        rw [this]; ring
  refine ⟨_, roundDouble_of_lt x hx ?_, hb⟩
  have t : |(rne (x / ulp x) : ℚ) * ulp x| ≤ |(rne (x / ulp x) : ℚ) * ulp x - x| + |x| := by
    have := abs_add ((rne (x / ulp x) : ℚ) * ulp x - x) x
    simpa using this
  have s53 : (2 : ℚ) ^ (-53 : ℤ) < 1 := by
    apply zpow_lt_one_of_neg₀ <;> norm_num
  have s1024 : (2 : ℚ) ^ (1024 : ℤ) = 2 * 2 ^ (1023 : ℤ) := by
    rw [show (1024 : ℤ) = 1 + 1023 by norm_num, zpow_add₀ (two_ne_zero)]; norm_num
  have p : (0 : ℚ) < 2 ^ (1023 : ℤ) := by positivity
  have q : 2 ^ (-53 : ℤ) * |x| < 2 ^ (1023 : ℤ) := by
    calc 2 ^ (-53 : ℤ) * |x| ≤ 2 ^ (-53 : ℤ) * 2 ^ (1023 : ℤ) := by gcongr
      _ < 1 * 2 ^ (1023 : ℤ) := by gcongr
      _ = 2 ^ (1023 : ℤ) := one_mul _
  rw [s1024]
  linarith

/-- The value `(w / r) * 100` computed in binary64 is finite and within
`2 ^ (-45)` of the exact percentage. -/
theorem percent_error (r w : ℕ) (hw0 : 0 < w) (hw : w ≤ r) (hr : r ≤ 2 ^ 44) :
    ∃ y : ℚ, jsMul (jsDiv (.fin (w : ℚ)) (.fin (r : ℚ))) (.fin 100) = .fin y ∧
      |y - 100 * w / r| < 2 ^ (-45 : ℤ) := by
  have hr0 : 0 < r := lt_of_lt_of_le hw0 hw
  have hrq : (0 : ℚ) < r := by exact_mod_cast hr0
  have hwq : (0 : ℚ) < w := by exact_mod_cast hw0
  have hwr : (w : ℚ) ≤ r := by exact_mod_cast hw
  have hrle : (r : ℚ) ≤ 2 ^ 44 := by exact_mod_cast hr
  have hw1 : (1 : ℚ) ≤ w := by exact_mod_cast hw0
  -- the quotient
  have ha0 : (0 : ℚ) < w / r := by positivity
  have ha1 : (w : ℚ) / r ≤ 1 := (div_le_one hrq).2 hwr
  have halow : (2 : ℚ) ^ (-44 : ℤ) ≤ w / r := by
    have e : (2 : ℚ) ^ (-44 : ℤ) = 1 / 2 ^ 44 := by norm_num
    rw [e, div_le_div_iff₀ (by positivity) hrq]
    nlinarith
  have small : (2 : ℚ) ^ (-1022 : ℤ) ≤ 2 ^ (-45 : ℤ) :=
    zpow_le_zpow_right₀ (by norm_num) (by norm_num)
  have s4445 : (2 : ℚ) ^ (-45 : ℤ) ≤ 2 ^ (-44 : ℤ) :=
    zpow_le_zpow_right₀ (by norm_num) (by norm_num)
  have big : (8 : ℚ) ≤ 2 ^ (1023 : ℤ) := by
    have : (2 : ℚ) ^ (3 : ℤ) ≤ 2 ^ (1023 : ℤ) := zpow_le_zpow_right₀ (by norm_num) (by norm_num)
    norm_num at this ⊢
  have big2 : (256 : ℚ) ≤ 2 ^ (1023 : ℤ) := by
    have : (2 : ℚ) ^ (8 : ℤ) ≤ 2 ^ (1023 : ℤ) := zpow_le_zpow_right₀ (by norm_num) (by norm_num)
    norm_num at this ⊢
  obtain ⟨y1, e1, b1⟩ := roundDouble_normal (w / r)
    (by rw [abs_of_pos ha0]; linarith) (by rw [abs_of_pos ha0]; linarith)
  rw [abs_of_pos ha0] at b1
  have eps : (2 : ℚ) ^ (-53 : ℤ) = 1 / 9007199254740992 := by norm_num
  have e45 : (2 : ℚ) ^ (-45 : ℤ) = 1 / 35184372088832 := by norm_num
  have e44 : (2 : ℚ) ^ (-44 : ℤ) = 1 / 17592186044416 := by norm_num
  rw [eps] at b1
  rw [abs_le] at b1
  obtain ⟨b1l, b1u⟩ := b1
  have y1pos : 0 < y1 := by nlinarith
  have y1lo : (2 : ℚ) ^ (-45 : ℤ) ≤ y1 * 100 := by
    rw [e45]; rw [e44] at halow; nlinarith
  have y1hi : y1 * 100 ≤ 256 := by nlinarith
  have y100 : 0 < y1 * 100 := by positivity
  obtain ⟨y2, e2, b2⟩ := roundDouble_normal (y1 * 100)
    (by rw [abs_of_pos y100]; linarith) (by rw [abs_of_pos y100]; linarith)
  rw [abs_of_pos y100, eps, abs_le] at b2
  obtain ⟨b2l, b2u⟩ := b2
  refine ⟨y2, ?_, ?_⟩
  · have hne : (r : ℚ) ≠ 0 := ne_of_gt hrq
    simp only [jsDiv, hne, if_false, e1, jsMul, e2]
  · rw [e45, abs_lt]
    have t : (100 : ℚ) * w / r = 100 * (w / r) := by ring
    rw [t]
    constructor <;> nlinarith

/-- Rounding a value that is within `1 / (2 r)` of a fraction over `r` gives the
rounding of the fraction, or one less when the fraction is exactly halfway. -/
theorem floor_half_near (r w : ℕ) (hr0 : 0 < r) (y : ℚ)
    (hy : |y - 100 * w / r| < 1 / (2 * r)) :
    ⌊y + 1 / 2⌋ = round (100 * w / r : ℚ) ∨
      (⌊y + 1 / 2⌋ = round (100 * w / r : ℚ) - 1 ∧
        2 * (100 * w / r : ℚ) = 2 * ((round (100 * w / r : ℚ) - 1 : ℤ) : ℚ) + 1) := by
  have hrq : (0 : ℚ) < r := by exact_mod_cast hr0
  have hr1 : (1 : ℚ) ≤ r := by exact_mod_cast hr0
  set E : ℚ := 100 * w / r with hE
  set k : ℤ := round E with hk
  have hkf : k = ⌊E + 1 / 2⌋ := round_eq E
  have k1 : (k : ℚ) ≤ E + 1 / 2 := by rw [hkf]; exact Int.floor_le _
  have k2 : E + 1 / 2 < k + 1 := by rw [hkf]; exact Int.lt_floor_add_one _
  have hEr : E * r = 100 * w := by rw [hE]; field_simp
  -- the same bounds between integers
  have i2 : (200 * (w : ℤ) + r : ℤ) < (k + 1) * (2 * r) := by
    have : ((200 * (w : ℤ) + r : ℤ) : ℚ) < (((k + 1) * (2 * r) : ℤ) : ℚ) := by
      push_cast; nlinarith
    exact_mod_cast this
  have i2q : (200 * (w : ℚ) + r) + 1 ≤ (k + 1) * (2 * r) := by
    have : (200 * (w : ℤ) + r : ℤ) + 1 ≤ (k + 1) * (2 * r) := by omega
    exact_mod_cast this
  have inv : (1 : ℚ) / (2 * r) * (2 * r) = 1 := by field_simp
  have invpos : (0 : ℚ) < 1 / (2 * r) := by positivity
  have invle : (1 : ℚ) / (2 * r) ≤ 1 / 2 := by
    rw [div_le_div_iff₀ (by positivity) (by norm_num)]; linarith
  rw [abs_lt] at hy
  obtain ⟨hyl, hyu⟩ := hy
  have up : y + 1 / 2 < k + 1 := by
    have : (E + 1 / 2 + 1 / (2 * r)) * (2 * r) ≤ (k + 1) * (2 * r) := by nlinarith
    have : E + 1 / 2 + 1 / (2 * r) ≤ k + 1 := le_of_mul_le_mul_right this (by positivity)
    linarith
  have lo : (k : ℚ) - 1 ≤ y + 1 / 2 := by linarith
  by_cases hc : (k : ℚ) ≤ y + 1 / 2
  · left
    exact Int.floor_eq_iff.2 ⟨hc, up⟩
  · right
    push_neg at hc
    constructor
    · apply Int.floor_eq_iff.2
      push_cast
      constructor <;> linarith
    · have i3 : (200 * (w : ℤ) + r : ℤ) < k * (2 * r) + 1 := by
        have : ((200 * (w : ℤ) + r : ℤ) : ℚ) < ((k * (2 * r) + 1 : ℤ) : ℚ) := by
          push_cast; nlinarith
        exact_mod_cast this
      have i1 : k * (2 * r) ≤ (200 * (w : ℤ) + r : ℤ) := by
        have : ((k * (2 * r) : ℤ) : ℚ) ≤ ((200 * (w : ℤ) + r : ℤ) : ℚ) := by
          push_cast; nlinarith
        exact_mod_cast this
      have i4 : (200 * (w : ℤ) + r : ℤ) = k * (2 * r) := by omega
      have i4q : (200 * (w : ℚ) + r) = k * (2 * r) := by exact_mod_cast i4
      have : (2 * E - (2 * ((k : ℚ) - 1) + 1)) * r = 0 := by nlinarith
      have hz : 2 * E - (2 * ((k : ℚ) - 1) + 1) = 0 := by
        rcases mul_eq_zero.1 this with h | h
        · exact h
        · exact absurd h (ne_of_gt hrq)
      push_cast
      linarith

/-- A binary64 value is the multiple of its spacing that rounding picks. -/
theorem isDouble_eq (q : ℚ) (hq : q ≠ 0) (hd : isDouble q) :
    (rne (q / ulp q) : ℚ) * ulp q = q := by
  unfold isDouble roundDouble at hd
  simp only [hq, if_false] at hd
  split_ifs at hd
  exact JSNum.fin.inj hd

/-- The largest binary64 value below `1` is `1 - 2 ^ (-53)`. -/
theorem double_lt_one (r : ℚ) (hd : isDouble r) (h0 : 0 < r) (h1 : r < 1) :
    r ≤ 1 - 2 ^ (-53 : ℤ) := by
  have hr : r ≠ 0 := ne_of_gt h0
  have hm := isDouble_eq r hr hd
  have hb : binade r ≤ -1 := binade_le r hr (-1) (by rw [abs_of_pos h0]; simpa using h1)
  have eps : (2 : ℚ) ^ (-53 : ℤ) = 1 / 9007199254740992 := by norm_num
  rcases lt_or_eq_of_le hb with hlt | heq
  · have b2 := (binade_spec r hr).2
    rw [abs_of_pos h0] at b2
    have : (2 : ℚ) ^ (binade r + 1) ≤ 2 ^ (-1 : ℤ) :=
      zpow_le_zpow_right₀ (by norm_num) (by omega)
    have e1 : (2 : ℚ) ^ (-1 : ℤ) = 1 / 2 := by norm_num
    rw [e1] at this
    rw [eps]
    linarith
  · have hu : ulp r = 2 ^ (-53 : ℤ) := by
      unfold ulp
      rw [heq]
      norm_num
    rw [hu, eps] at hm
    have hlt : ((rne (r / (1 / 9007199254740992)) : ℤ) : ℚ) < ((9007199254740992 : ℤ) : ℚ) := by
      push_cast; linarith
    have hlt2 : rne (r / (1 / 9007199254740992)) < 9007199254740992 := by exact_mod_cast hlt
    have hle : ((rne (r / (1 / 9007199254740992)) : ℤ) : ℚ) ≤ ((9007199254740991 : ℤ) : ℚ) := by
      have : rne (r / (1 / 9007199254740992)) ≤ 9007199254740991 := by omega
      exact_mod_cast this
    rw [eps]
    push_cast at hle
    linarith

/-- Three times a binary64 value below `1` rounds to a finite value below `3`. -/
theorem roundDouble_three_mul (r : ℚ) (hd : isDouble r) (h0 : 0 < r) (h1 : r < 1) :
    ∃ y : ℚ, roundDouble (r * 3) = .fin y ∧ 0 ≤ y ∧ y < 3 := by
  have hle := double_lt_one r hd h0 h1
  have eps : (2 : ℚ) ^ (-53 : ℤ) = 1 / 9007199254740992 := by norm_num
  rw [eps] at hle
  have hx : r * 3 ≠ 0 := by positivity
  have hx0 : 0 < r * 3 := by positivity
  have hu : ulp (r * 3) ≤ 2 ^ ((1 : ℤ) - 52) :=
    ulp_le (r * 3) hx 1 (by norm_num) (by rw [abs_of_pos hx0]; norm_num; linarith)
  have e51 : (2 : ℚ) ^ ((1 : ℤ) - 52) = 1 / 2251799813685248 := by norm_num
  rw [e51] at hu
  have herr := round_error (r * 3)
  rw [abs_le] at herr
  obtain ⟨el, eu⟩ := herr
  have hup := ulp_pos (r * 3)
  have hy0 : (0 : ℚ) ≤ (rne (r * 3 / ulp (r * 3)) : ℚ) * ulp (r * 3) := by
    have : 0 ≤ rne (r * 3 / ulp (r * 3)) := rne_nonneg _ (by positivity)
    have : (0 : ℚ) ≤ (rne (r * 3 / ulp (r * 3)) : ℚ) := by exact_mod_cast this
    positivity
  have hy3 : (rne (r * 3 / ulp (r * 3)) : ℚ) * ulp (r * 3) < 3 := by linarith
  refine ⟨_, roundDouble_of_lt (r * 3) hx ?_, hy0, hy3⟩
  rw [abs_of_nonneg hy0]
  have : (4 : ℚ) ≤ 2 ^ (1024 : ℤ) := by
    have : (2 : ℚ) ^ (2 : ℤ) ≤ 2 ^ (1024 : ℤ) := zpow_le_zpow_right₀ (by norm_num) (by norm_num)
    norm_num at this ⊢
  linarith

/-- Doubling a binary64 value is exact as long as the double stays below
`2 ^ 1024`. -/
theorem roundDouble_two_mul (q : ℚ) (hd : isDouble q) (hlt : |2 * q| < 2 ^ (1024 : ℤ)) :
    roundDouble (2 * q) = .fin (2 * q) := by
  by_cases hq : q = 0
  · subst hq; simp [roundDouble]
  have h2q : 2 * q ≠ 0 := by simpa using hq
  have hm := isDouble_eq q hq hd
  obtain ⟨b1, b2⟩ := binade_spec q hq
  have hb : binade (2 * q) = binade q + 1 := by
    apply binade_unique
    · rw [abs_mul, zpow_add_one₀ (two_ne_zero)]; norm_num; linarith
    · rw [abs_mul, zpow_add_one₀ (two_ne_zero)]; norm_num; linarith
  have hu := ulp_pos q
  have key : (rne (2 * q / ulp (2 * q)) : ℚ) * ulp (2 * q) = 2 * q := by
    by_cases hn : -1022 ≤ binade q
    · have u2 : ulp (2 * q) = 2 * ulp q := by
        unfold ulp
        rw [hb, max_eq_left hn, max_eq_left (by omega : (-1022 : ℤ) ≤ binade q + 1)]
        rw [show binade q + 1 - 52 = (binade q - 52) + 1 by ring, zpow_add_one₀ (two_ne_zero)]
        ring
      have d : 2 * q / ulp (2 * q) = q / ulp q := by
        rw [u2]; field_simp; ring
      rw [d, u2]
      linarith
    · have u2 : ulp (2 * q) = ulp q := by
        unfold ulp
        rw [hb, max_eq_right (by omega : binade q ≤ (-1022 : ℤ)),
          max_eq_right (by omega : binade q + 1 ≤ (-1022 : ℤ))]
      have d : 2 * q / ulp (2 * q) = ((2 * rne (q / ulp q) : ℤ) : ℚ) := by
        rw [u2, Int.cast_mul, Int.cast_ofNat, div_eq_iff (ne_of_gt hu)]
        linarith
      rw [d, rne_intCast, u2]
      push_cast
      linarith
  have := roundDouble_of_lt (2 * q) h2q (by rw [key]; exact hlt)
  rw [this, key]

/-! ## Facts about the number operators -/

theorem jsMul_comm (a b : JSNum) : jsMul a b = jsMul b a := by
  have hb : ∀ x y : Bool, (x != y) = (y != x) := by decide
  cases a <;> cases b <;> simp [jsMul, mul_comm, hb _ _]

theorem jsGe_zero_not_lt {w : JSNum} (h : jsGe w (.fin 0) = true) :
    jsLt w (.fin 0) = false := by
  cases w <;> simp_all [jsGe, jsLt]

theorem jsGe_zero_of_not_lt {w : JSNum} (hn : w ≠ .nan) (h : jsLt w (.fin 0) = false) :
    jsGe w (.fin 0) = true := by
  cases w <;> simp_all [jsGe, jsLt]

/-! ## Facts about `playMonty` -/

theorem playMonty_none (s : Stats) (w random : JSNum) :
    playMonty s ⟨none, w⟩ random = (.chooseHandError, s) := rfl

theorem playMonty_negative (s : Stats) (hand w random : JSNum)
    (h : jsLt w (.fin 0) = true) :
    playMonty s ⟨some hand, w⟩ random = (.negativeWagerError, s) := by
  simp [playMonty, h]

theorem playMonty_round (s : Stats) (hand w random : JSNum)
    (h : jsLt w (.fin 0) = false) :
    playMonty s ⟨some hand, w⟩ random =
      let won := jsStrictEq hand (winningHandOf random)
      let s2 : Stats := ⟨jsAdd s.totalRounds (.fin 1),
        if won then jsAdd s.totalWins (.fin 1) else s.totalWins⟩
      (.round ⟨hand, winningHandOf random, won, w,
          if won then jsMul w (.fin 2) else jsNeg w,
          getHandName hand, getHandName (winningHandOf random), updateStatsDisplay s2⟩, s2) := by
  simp only [playMonty, h]
  cases jsStrictEq hand (winningHandOf random) <;> simp

end Monty

namespace Gate

/-! ## Facts about the ZIP pattern -/

theorem isDigitUnit_iff (c : ℕ) : isDigitUnit c = true ↔ 48 ≤ c ∧ c ≤ 57 := by
  simp [isDigitUnit]

/-- The counted quantifier reaches the end of the input exactly on an input of
`n` digits. -/
theorem takeDigits_end : ∀ (n index : ℕ) (s : JSString),
    (∃ next, takeDigits n index s = some (next, [])) ↔
      s.length = n ∧ ∀ c ∈ s, isDigitUnit c = true := by
  intro n
  induction n with
  | zero =>
    intro index s
    cases s <;> simp [takeDigits]
  | succ n ih =>
    intro index s
    cases s with
    | nil => simp [takeDigits]
    | cons c cs =>
      by_cases hc : isDigitUnit c = true
      · simp only [takeDigits, hc, if_true, ih (index + 1) cs]
        simp [hc]
      · simp [takeDigits, hc]

theorem matchHere_zip_start (s : JSString) :
    matchHere zipPattern 0 s = true ↔ s.length = 5 ∧ ∀ c ∈ s, isDigitUnit c = true := by
  rw [← takeDigits_end 5 0 s]
  simp only [zipPattern, matchHere]
  cases h : takeDigits 5 0 s with
  | none => simp
  | some p =>
    obtain ⟨next, after⟩ := p
    cases after <;> simp

theorem matchHere_zip_later (index : ℕ) (h : 0 < index) (s : JSString) :
    matchHere zipPattern index s = false := by
  have : index ≠ 0 := by omega
  simp [zipPattern, matchHere, this]

theorem regexSearch_zip_later : ∀ (s : JSString) (index : ℕ), 0 < index →
    regexSearch zipPattern index s = false := by
  intro s
  induction s with
  | nil => intro index h; simp [regexSearch, matchHere_zip_later index h]
  | cons c cs ih =>
    intro index h
    simp [regexSearch, matchHere_zip_later index h, ih (index + 1) (by omega)]

theorem isFiveDigitZip_eq (s : JSString) : isFiveDigitZip s = matchHere zipPattern 0 s := by
  cases s with
  | nil => rfl
  | cons c cs =>
    simp [isFiveDigitZip, regexTest, regexSearch, regexSearch_zip_later cs 1 (by omega)]

theorem isFiveDigitZip_true_iff (s : JSString) :
    isFiveDigitZip s = true ↔ s.length = 5 ∧ ∀ c ∈ s, 48 ≤ c ∧ c ≤ 57 := by
  rw [isFiveDigitZip_eq, matchHere_zip_start]
  simp only [isDigitUnit_iff]

end Gate

namespace Monty

/-! ## Facts about the counters -/

/-- Every whole number up to `2 ^ 53` is a binary64 value. -/
theorem roundDouble_natCast (n : ℕ) (h : n ≤ 2 ^ 53) : roundDouble (n : ℚ) = .fin (n : ℚ) := by
  rcases Nat.eq_zero_or_pos n with h0 | hpos
  · subst h0; simp [roundDouble]
  have hq : (0 : ℚ) < n := by exact_mod_cast hpos
  have hx : (n : ℚ) ≠ 0 := ne_of_gt hq
  have h1 : (1 : ℚ) ≤ n := by exact_mod_cast hpos
  have hle : (n : ℚ) ≤ 2 ^ 53 := by exact_mod_cast h
  have hb0 : 0 ≤ binade (n : ℚ) :=
    le_binade _ hx 0 (by rw [abs_of_pos hq]; simpa using h1)
  have hb53 : binade (n : ℚ) ≤ 53 :=
    binade_le _ hx 53 (by
      rw [abs_of_pos hq]
      have : (2 : ℚ) ^ ((53 : ℤ) + 1) = 2 * 2 ^ 53 := by norm_num
      rw [this]
      have : (0 : ℚ) < 2 ^ 53 := by positivity
      linarith)
  have key : (rne ((n : ℚ) / ulp n) : ℚ) * ulp n = n := by
    rcases lt_or_eq_of_le hb53 with hlt | heq
    · obtain ⟨k, hk⟩ : ∃ k : ℕ, binade (n : ℚ) - 52 = -(k : ℤ) :=
        ⟨(52 - binade (n : ℚ)).toNat, by omega⟩
      have hu : ulp (n : ℚ) = ((2 : ℚ) ^ k)⁻¹ := by
        unfold ulp
        rw [max_eq_left (by omega : (-1022 : ℤ) ≤ binade (n : ℚ)), hk, zpow_neg, zpow_natCast]
      have hp : (0 : ℚ) < 2 ^ k := by positivity
      have d : (n : ℚ) / ulp n = (((n : ℤ) * 2 ^ k : ℤ) : ℚ) := by
        rw [hu, div_inv_eq_mul]; push_cast; ring
      rw [d, rne_intCast, hu]
      push_cast
      field_simp
    · have b1 := (binade_spec (n : ℚ) hx).1
      rw [heq, abs_of_pos hq] at b1
      have b1n : (2 : ℚ) ^ 53 ≤ n := by
        have : (2 : ℚ) ^ (53 : ℤ) = 2 ^ 53 := by norm_num
        rw [this] at b1; exact b1
      have hn : n = 2 ^ 53 := by
        have : (2 : ℕ) ^ 53 ≤ n := by exact_mod_cast b1n
        omega
      have hu : ulp (n : ℚ) = 2 := by
        unfold ulp
        rw [heq]; norm_num
      have d : (n : ℚ) / ulp n = (((2 : ℤ) ^ 52 : ℤ) : ℚ) := by
        rw [hu, hn]; norm_num
      rw [d, rne_intCast, hu, hn]
      norm_num
  have := roundDouble_of_lt (n : ℚ) hx (by
    rw [key, abs_of_pos hq]
    have : (2 : ℚ) ^ (53 : ℤ) ≤ 2 ^ (1024 : ℤ) := zpow_le_zpow_right₀ (by norm_num) (by norm_num)
    have e : (2 : ℚ) ^ (53 : ℤ) = 2 ^ 53 := by norm_num
    have p : (0 : ℚ) < 2 ^ (1024 : ℤ) := by positivity
    rw [e] at this
    rcases lt_or_eq_of_le hle with a | a
    · linarith
    · rw [a]
      have : (2 : ℚ) ^ (53 : ℤ) < 2 ^ (1024 : ℤ) := zpow_lt_zpow_right₀ (by norm_num) (by norm_num)
      rw [e] at this; exact this)
  rw [this, key]

/-- Below `2 ^ 53` the statement `+= 1` adds exactly one. -/
theorem jsAdd_one_of_lt (n : ℕ) (h : n < 2 ^ 53) :
    jsAdd (.fin (n : ℚ)) (.fin 1) = .fin ((n + 1 : ℕ) : ℚ) := by
  have := roundDouble_natCast (n + 1) (by omega)
  simp only [jsAdd]
  push_cast at this ⊢
  exact this

/-- At `2 ^ 53` the statement `+= 1` changes nothing. -/
theorem jsAdd_one_top : jsAdd (.fin ((2 ^ 53 : ℕ) : ℚ)) (.fin 1) = .fin ((2 ^ 53 : ℕ) : ℚ) := by
  decide!

/-- A counter that holds a whole number up to `2 ^ 53` still does after `+= 1`,
and has not decreased. -/
theorem jsAdd_one_counter (n : ℕ) (h : n ≤ 2 ^ 53) :
    ∃ n1 : ℕ, jsAdd (.fin (n : ℚ)) (.fin 1) = .fin (n1 : ℚ) ∧ n1 ≤ 2 ^ 53 ∧ n ≤ n1 ∧
      (n < 2 ^ 53 → n1 = n + 1) ∧ (n = 2 ^ 53 → n1 = n) := by
  rcases Nat.lt_or_ge n (2 ^ 53) with hlt | hge
  · exact ⟨n + 1, jsAdd_one_of_lt n hlt, by omega, by omega, fun _ => rfl, fun h => by omega⟩
  · have hn : n = 2 ^ 53 := by omega
    subst hn
    exact ⟨2 ^ 53, jsAdd_one_top, le_rfl, le_rfl, fun h => by omega, fun _ => rfl⟩

end Monty

namespace Monty

/-! ## The game: payout and statistics -/

/-- C1, as stated, fails: with `totalWins` at `2 ^ 53` (and `totalRounds` with it) a
round won with pick 1 and wager 10 pays 20 but leaves `totalWins` at `2 ^ 53`,
because `2 ^ 53 + 1` is not a binary64 value. -/
theorem playMonty_win_at_top :
    jsGe (.fin 10) (.fin 0) = true ∧
    jsStrictEq (.fin 1) (winningHandOf (.fin 0)) = true ∧
    (playMonty ⟨.fin 9007199254740992, .fin 9007199254740992⟩
        ⟨some (.fin 1), .fin 10⟩ (.fin 0)).1
      = .round ⟨.fin 1, .fin 1, true, .fin 10, .fin 20, "Left Hand 🖐", "Left Hand 🖐",
          ⟨.fin 9007199254740992, .fin 9007199254740992, .fin 100⟩⟩ ∧
    (playMonty ⟨.fin 9007199254740992, .fin 9007199254740992⟩
        ⟨some (.fin 1), .fin 10⟩ (.fin 0)).2.totalWins = .fin 9007199254740992 ∧
    (playMonty ⟨.fin 9007199254740992, .fin 9007199254740992⟩
        ⟨some (.fin 1), .fin 10⟩ (.fin 0)).2.totalWins ≠ .fin (9007199254740992 + 1) := by
  refine ⟨by decide!, by decide!, by decide!, by decide!, by decide!⟩

/-- C1, amended: for every wager `>= 0` and every pick, a round resolved with the pick
equal to the winning hand pays `2 * wager` and counts as a win: `totalWins += 1`
runs, which adds exactly one whenever `totalWins` is a whole number below `2 ^ 53`;
a wager of `0` pays `0` and still counts as a win; for a binary64 wager whose
double is below `2 ^ 1024` the payout is the exact double. -/
theorem playMonty_win_payout (s : Stats) (hand wager random : JSNum)
    (hw : jsGe wager (.fin 0) = true)
    (hwin : jsStrictEq hand (winningHandOf random) = true) :
    ∃ r, playMonty s ⟨some hand, wager⟩ random
        = (.round r, ⟨jsAdd s.totalRounds (.fin 1), jsAdd s.totalWins (.fin 1)⟩) ∧
      r.playerWon = true ∧ r.payout = jsMul (.fin 2) wager ∧
      (wager = .fin 0 → r.payout = .fin 0) ∧
      (∀ q : ℚ, wager = .fin q → isDouble q → 2 * q < 2 ^ (1024 : ℤ) →
        r.payout = .fin (2 * q)) ∧
      (∀ n : ℕ, s.totalWins = .fin (n : ℚ) → n < 2 ^ 53 →
        (playMonty s ⟨some hand, wager⟩ random).2.totalWins = .fin ((n + 1 : ℕ) : ℚ)) := by
  have hlt := jsGe_zero_not_lt hw
  rw [playMonty_round s hand wager random hlt]
  simp only [hwin, if_true]
  refine ⟨_, rfl, rfl, jsMul_comm _ _, ?_, ?_, ?_⟩
  · rintro rfl
    simp [jsMul, roundDouble]
  · rintro q rfl hd hq
    have h0 : 0 ≤ q := by
      simpa [jsGe, jsLt] using hw
    have : |2 * q| < 2 ^ (1024 : ℤ) := by
      rw [abs_of_nonneg (by positivity)]; exact hq
    simp only [jsMul]
    rw [mul_comm q 2]
    exact roundDouble_two_mul q hd this
  · intro n hn hn53
    rw [hn]
    exact jsAdd_one_of_lt n hn53

/-- C1, amended, at pick 1, winning hand 1, wager 10 on a fresh page: the payout is
20 and both counters go from 0 to 1. -/
theorem playMonty_win_payout_witness :
    jsGe (.fin 10) (.fin 0) = true ∧ jsStrictEq (.fin 1) (winningHandOf (.fin 0)) = true ∧
    (∃ r, (playMonty initialStats ⟨some (.fin 1), .fin 10⟩ (.fin 0)).1 = .round r ∧
      r.playerWon = true ∧ r.payout = .fin 20) ∧
    (playMonty initialStats ⟨some (.fin 1), .fin 10⟩ (.fin 0)).2.totalWins
      = .fin ((0 + 1 : ℕ) : ℚ) := by
  have hw : jsGe (.fin 10) (.fin 0) = true := by decide!
  have hwin : jsStrictEq (.fin 1) (winningHandOf (.fin 0)) = true := by decide!
  obtain ⟨r, h1, h2, _, _, h5, h6⟩ :=
    playMonty_win_payout initialStats (.fin 1) (.fin 10) (.fin 0) hw hwin
  refine ⟨hw, hwin, ⟨r, congrArg Prod.fst h1, h2, ?_⟩, ?_⟩
  · rw [h5 10 rfl (by decide!) (by norm_num)]
    norm_num
  · exact h6 0 (by simp [initialStats]) (by norm_num)

/-- C2: for every wager `>= 0` and every pick, a round resolved with the pick
different from the winning hand pays `-wager` and leaves `totalWins` unchanged
(`totalRounds += 1` runs). -/
theorem playMonty_loss_payout (s : Stats) (hand wager random : JSNum)
    (hw : jsGe wager (.fin 0) = true)
    (hloss : jsStrictEq hand (winningHandOf random) = false) :
    ∃ r, playMonty s ⟨some hand, wager⟩ random
        = (.round r, ⟨jsAdd s.totalRounds (.fin 1), s.totalWins⟩) ∧
      r.playerWon = false ∧ r.payout = jsNeg wager ∧
      (∀ q : ℚ, wager = .fin q → r.payout = .fin (-q)) := by
  have hlt := jsGe_zero_not_lt hw
  rw [playMonty_round s hand wager random hlt]
  simp only [hloss]
  refine ⟨_, rfl, rfl, rfl, ?_⟩
  rintro q rfl
  rfl

/-- C2 at pick 2, winning hand 3, wager 5: the payout is -5, `totalRounds` goes from
0 to 1 and `totalWins` stays 0. -/
theorem playMonty_loss_payout_witness :
    jsGe (.fin 5) (.fin 0) = true ∧
    jsStrictEq (.fin 2) (winningHandOf (.fin (3 / 4))) = false ∧
    jsAdd (.fin 0) (.fin 1) = .fin 1 ∧
    ∃ r, playMonty initialStats ⟨some (.fin 2), .fin 5⟩ (.fin (3 / 4))
        = (.round r, ⟨jsAdd (.fin 0) (.fin 1), .fin 0⟩) ∧
      r.playerWon = false ∧ r.payout = .fin (-5) := by
  have hw : jsGe (.fin 5) (.fin 0) = true := by decide!
  have hloss : jsStrictEq (.fin 2) (winningHandOf (.fin (3 / 4))) = false := by decide!
  obtain ⟨r, h1, h2, _, h4⟩ :=
    playMonty_loss_payout initialStats (.fin 2) (.fin 5) (.fin (3 / 4)) hw hloss
  exact ⟨hw, hloss, by decide!, r, h1, h2, h4 5 rfl⟩

/-- C3, as stated, fails: with `totalRounds` at `2 ^ 53`, a round resolved with pick 2,
wager 10 and winning hand 1 leaves `totalRounds` at `2 ^ 53`. -/
theorem playMonty_round_at_top :
    (playMonty ⟨.fin 9007199254740992, .fin 0⟩ ⟨some (.fin 2), .fin 10⟩ (.fin 0)).1
      = .round ⟨.fin 2, .fin 1, false, .fin 10, .fin (-10), "Middle Hand ✋", "Left Hand 🖐",
          ⟨.fin 9007199254740992, .fin 0, .fin 0⟩⟩ ∧
    (playMonty ⟨.fin 9007199254740992, .fin 0⟩
        ⟨some (.fin 2), .fin 10⟩ (.fin 0)).2.totalRounds = .fin 9007199254740992 ∧
    (playMonty ⟨.fin 9007199254740992, .fin 0⟩
        ⟨some (.fin 2), .fin 10⟩ (.fin 0)).2.totalRounds ≠ .fin (9007199254740992 + 1) := by
  refine ⟨by decide!, by decide!, by decide!⟩

/-- C3, amended: every resolved round runs `totalRounds += 1`, whatever the pick, the
wager and the winning hand, which adds exactly one whenever `totalRounds` is a
whole number below `2 ^ 53`. -/
theorem playMonty_counts_round (s : Stats) (form : FormInput) (random : JSNum)
    (r : RoundResult) (h : (playMonty s form random).1 = .round r)
    (n : ℕ) (hn : s.totalRounds = .fin (n : ℚ)) (hlt : n < 2 ^ 53) :
    (playMonty s form random).2.totalRounds = jsAdd s.totalRounds (.fin 1) ∧
    (playMonty s form random).2.totalRounds = .fin ((n + 1 : ℕ) : ℚ) := by
  obtain ⟨sel, w⟩ := form
  cases sel with
  | none => simp [playMonty] at h
  | some hand =>
    by_cases hneg : jsLt w (.fin 0) = true
    · rw [playMonty_negative s hand w random hneg] at h
      simp at h
    · have hf : jsLt w (.fin 0) = false := by simpa using hneg
      rw [playMonty_round s hand w random hf]
      refine ⟨rfl, ?_⟩
      simp only
      rw [hn]
      exact jsAdd_one_of_lt n hlt

/-- C3, amended, at a lost round and at a won round from 7 rounds played. -/
theorem playMonty_counts_round_witness :
    (playMonty ⟨.fin 7, .fin 2⟩ ⟨some (.fin 2), .fin 5⟩ (.fin (3 / 4))).2.totalRounds
      = .fin ((7 + 1 : ℕ) : ℚ) ∧
    (playMonty ⟨.fin 7, .fin 2⟩ ⟨some (.fin 3), .fin 5⟩ (.fin (3 / 4))).2.totalRounds
      = .fin ((7 + 1 : ℕ) : ℚ) :=
  ⟨(playMonty_counts_round ⟨.fin 7, .fin 2⟩ ⟨some (.fin 2), .fin 5⟩ (.fin (3 / 4)) _
    (congrArg Prod.fst
      (playMonty_round ⟨.fin 7, .fin 2⟩ (.fin 2) (.fin 5) (.fin (3 / 4)) (by decide!)))
    7 (by simp) (by norm_num)).2,
   (playMonty_counts_round ⟨.fin 7, .fin 2⟩ ⟨some (.fin 3), .fin 5⟩ (.fin (3 / 4)) _
    (congrArg Prod.fst
      (playMonty_round ⟨.fin 7, .fin 2⟩ (.fin 3) (.fin 5) (.fin (3 / 4)) (by decide!)))
    7 (by simp) (by norm_num)).2⟩

theorem playMonty_keeps_counters (s : Stats) (form : FormInput) (random : JSNum)
    (h : CountersOk s) : CountersOk (playMonty s form random).2 := by
  obtain ⟨sel, w⟩ := form
  cases sel with
  | none => simpa [playMonty] using h
  | some hand =>
    by_cases hneg : jsLt w (.fin 0) = true
    · rw [playMonty_negative s hand w random hneg]; exact h
    · have hf : jsLt w (.fin 0) = false := by simpa using hneg
      rw [playMonty_round s hand w random hf]
      obtain ⟨n, m, hn, hm, hmn, hn53⟩ := h
      obtain ⟨n1, e1, b1, c1, d1, t1⟩ := jsAdd_one_counter n hn53
      obtain ⟨m1, e2, b2, c2, d2, t2⟩ := jsAdd_one_counter m (le_trans hmn hn53)
      simp only [hn, hm, e1, e2]
      cases jsStrictEq hand (winningHandOf random)
      · exact ⟨n1, m, rfl, rfl, by omega, b1⟩
      · refine ⟨n1, m1, rfl, rfl, ?_, b1⟩
        rcases Nat.lt_or_ge n (2 ^ 53) with a | a
        · have := d1 a
          rcases Nat.lt_or_ge m (2 ^ 53) with b | b
          · have := d2 b; omega
          · omega
        · omega

theorem playAll_keeps_counters (subs : List (FormInput × JSNum)) :
    ∀ s : Stats, CountersOk s → CountersOk (playAll s subs) := by
  induction subs with
  | nil => intro s h; exact h
  | cons p rest ih =>
    intro s h
    obtain ⟨form, random⟩ := p
    exact ih _ (playMonty_keeps_counters s form random h)

/-- C4: after any finite sequence of submissions from the initial statistics,
resolved or rejected, both counters are non-negative integers and
`totalWins <= totalRounds`. -/
theorem playAll_wins_le_rounds (subs : List (FormInput × JSNum)) :
    ∃ n m : ℕ, (playAll initialStats subs).totalRounds = .fin (n : ℚ) ∧
      (playAll initialStats subs).totalWins = .fin (m : ℚ) ∧ m ≤ n ∧
      jsGe (playAll initialStats subs).totalRounds (playAll initialStats subs).totalWins
        = true := by
  have h0 : CountersOk initialStats := ⟨0, 0, by simp [initialStats], by simp [initialStats],
    le_rfl, by norm_num⟩
  obtain ⟨n, m, hn, hm, hmn, _⟩ := playAll_keeps_counters subs initialStats h0
  refine ⟨n, m, hn, hm, hmn, ?_⟩
  rw [hn, hm]
  have : ¬ ((n : ℚ) < (m : ℚ)) := by
    have : (m : ℚ) ≤ n := by exact_mod_cast hmn
    exact not_lt.2 this
  simp [jsGe, jsLt, this]

/-! ## The win rate -/

/-- C5: the code breaks the claim. With 23 wins in 40 rounds (reached by 23 won and
17 lost rounds) the percentage is 57.5, which rounds to 58, but
`(23 / 40) * 100` is 57.49999999999999 in binary64 and the win rate shown is 57;
multiplying before dividing, `(100 * 23) / 40`, gives 58. -/
theorem winRate_not_round :
    playAll initialStats
      (List.replicate 23 (⟨some (.fin 1), .fin 0⟩, .fin 0) ++
        List.replicate 17 (⟨some (.fin 2), .fin 0⟩, .fin 0)) = ⟨.fin 40, .fin 23⟩ ∧
    jsMul (jsDiv (.fin 23) (.fin 40)) (.fin 100)
      = .fin (8092405580431359 / 140737488355328) ∧
    (updateStatsDisplay ⟨.fin 40, .fin 23⟩).winRate = .fin 57 ∧
    round (100 * (23 : ℚ) / 40) = 58 ∧
    (updateStatsDisplay ⟨.fin 40, .fin 23⟩).winRate
      ≠ .fin ((round (100 * (23 : ℚ) / 40) : ℤ) : ℚ) ∧
    mathRound (jsDiv (jsMul (.fin 100) (.fin 23)) (.fin 40)) = .fin 58 := by
  have h1 : (updateStatsDisplay ⟨.fin 40, .fin 23⟩).winRate = .fin 57 := by decide!
  have h2 : round (100 * (23 : ℚ) / 40) = 58 := by
    rw [round_eq, Int.floor_eq_iff]
    norm_num
  refine ⟨by decide!, by decide!, h1, h2, ?_, by decide!⟩
  rw [h1, h2]
  intro h
  have := JSNum.fin.inj h
  norm_num at this

/-- Up to `2 ^ 44` rounds the win rate is the rounding of the exact percentage, or
one less when the percentage is exactly halfway between two whole numbers. -/
theorem winRate_cases (r w : ℕ) (hw : w ≤ r) (hr : r ≤ 2 ^ 44) (hr0 : 0 < r) :
    ∃ m : ℤ, (updateStatsDisplay ⟨.fin (r : ℚ), .fin (w : ℚ)⟩).winRate = .fin m ∧
      (m = round (100 * w / r : ℚ) ∨
        (m = round (100 * w / r : ℚ) - 1 ∧ 2 * (100 * w / r : ℚ) = 2 * m + 1)) := by
  have hrq : (0 : ℚ) < r := by exact_mod_cast hr0
  have hne : (r : ℚ) ≠ 0 := ne_of_gt hrq
  have hgt : jsGt (.fin (r : ℚ)) (.fin 0) = true := by simp [jsGt, jsLt, hrq]
  rcases Nat.eq_zero_or_pos w with h0 | hpos
  · subst h0
    refine ⟨0, ?_, Or.inl ?_⟩
    · simp [updateStatsDisplay, hgt, jsDiv, jsMul, roundDouble, mathRound, hne]
      norm_num
    · simp
  · obtain ⟨y, e, b⟩ := percent_error r w hpos hw hr
    have hb : |y - 100 * w / r| < 1 / (2 * r) := by
      have hr2 : r ≤ 17592186044416 := by
        have := hr
        norm_num at this
        exact this
      have hrle : (r : ℚ) ≤ 17592186044416 := by exact_mod_cast hr2
      have e45 : (2 : ℚ) ^ (-45 : ℤ) = 1 / 35184372088832 := by norm_num
      have : (1 : ℚ) / 35184372088832 ≤ 1 / (2 * r) := by
        rw [div_le_div_iff₀ (by norm_num) (by positivity)]
        linarith
      rw [e45] at b
      linarith
    refine ⟨⌊y + 1 / 2⌋, ?_, ?_⟩
    · simp only [updateStatsDisplay, hgt, if_true, e, mathRound]
    · rcases floor_half_near r w hr0 y hb with h | ⟨h1, h2⟩
      · exact Or.inl h
      · refine Or.inr ⟨h1, ?_⟩
        rw [h2, h1]

/-- How far the win rate can be from the rounded percentage: it is 0 when no round
has been played; for up to `2 ^ 44` rounds it is within one half of
`100 * totalWins / totalRounds`, and differs from
`round (100 * totalWins / totalRounds)` only when the percentage is exactly halfway
between two whole numbers, by one; it is 0 after 0 rounds and 25 for 1 win in 4
rounds. -/
theorem winRate_nearest (r w : ℕ) (hw : w ≤ r) (hr : r ≤ 2 ^ 44) :
    (r = 0 → (updateStatsDisplay ⟨.fin (r : ℚ), .fin (w : ℚ)⟩).winRate = .fin 0) ∧
    (0 < r → ∃ m : ℤ, (updateStatsDisplay ⟨.fin (r : ℚ), .fin (w : ℚ)⟩).winRate = .fin m ∧
      |(m : ℚ) - 100 * w / r| ≤ 1 / 2 ∧
      (m = round (100 * w / r : ℚ) ∨
        (m = round (100 * w / r : ℚ) - 1 ∧ 2 * (100 * w / r : ℚ) = 2 * m + 1))) ∧
    (updateStatsDisplay ⟨.fin 0, .fin 0⟩).winRate = .fin 0 ∧
    (updateStatsDisplay ⟨.fin 4, .fin 1⟩).winRate = .fin 25 := by
  refine ⟨?_, ?_, by decide!, by decide!⟩
  · rintro rfl
    simp [updateStatsDisplay, jsGt, jsLt]
  · intro hr0
    obtain ⟨m, hm, hcase⟩ := winRate_cases r w hw hr hr0
    refine ⟨m, hm, ?_, hcase⟩
    rcases hcase with h | ⟨_, h2⟩
    · rw [h, abs_sub_comm]
      exact abs_sub_round _
    · have : (m : ℚ) - 100 * w / r = -(1 / 2) := by linarith
      rw [this, abs_neg, abs_of_pos (by norm_num)]

/-! ## The winning hand -/

/-- C6: for every binary64 value `r` with `0 <= r < 1` the winning hand
`Math.floor(r * 3) + 1` is 1, 2 or 3, and each of 1, 2 and 3 is the winning hand
for some such `r`. -/
theorem winningHandOf_range (r : ℚ) (hd : isDouble r) (h0 : 0 ≤ r) (h1 : r < 1) :
    (winningHandOf (.fin r) = .fin 1 ∨ winningHandOf (.fin r) = .fin 2 ∨
      winningHandOf (.fin r) = .fin 3) ∧
    (∃ r1 : ℚ, isDouble r1 ∧ 0 ≤ r1 ∧ r1 < 1 ∧ winningHandOf (.fin r1) = .fin 1) ∧
    (∃ r2 : ℚ, isDouble r2 ∧ 0 ≤ r2 ∧ r2 < 1 ∧ winningHandOf (.fin r2) = .fin 2) ∧
    (∃ r3 : ℚ, isDouble r3 ∧ 0 ≤ r3 ∧ r3 < 1 ∧ winningHandOf (.fin r3) = .fin 3) := by
  refine ⟨?_, ⟨0, by decide!, by norm_num, by norm_num, by decide!⟩,
    ⟨1 / 2, by decide!, by norm_num, by norm_num, by decide!⟩,
    ⟨3 / 4, by decide!, by norm_num, by norm_num, by decide!⟩⟩
  rcases eq_or_lt_of_le h0 with rfl | hpos
  · left; decide!
  · obtain ⟨y, e, y0, y3⟩ := roundDouble_three_mul r hd hpos h1
    have f0 : 0 ≤ ⌊y⌋ := Int.floor_nonneg.2 y0
    have f3 : ⌊y⌋ < 3 := Int.floor_lt.2 (by exact_mod_cast y3)
    have hval : winningHandOf (.fin r) = roundDouble (((⌊y⌋ : ℤ) : ℚ) + 1) := by
      simp only [winningHandOf, jsMul, e, mathFloor, jsAdd]
    rw [hval]
    have hcases : ⌊y⌋ = 0 ∨ ⌊y⌋ = 1 ∨ ⌊y⌋ = 2 := by omega
    rcases hcases with h | h | h <;> rw [h]
    · left; decide!
    · right; left; decide!
    · right; right; decide!

/-- C6 at the largest binary64 value below 1, `1 - 2 ^ (-53)`. -/
theorem winningHandOf_range_witness :
    isDouble (9007199254740991 / 9007199254740992) ∧
    (0 : ℚ) ≤ 9007199254740991 / 9007199254740992 ∧
    (9007199254740991 / 9007199254740992 : ℚ) < 1 ∧
    (winningHandOf (.fin (9007199254740991 / 9007199254740992)) = .fin 1 ∨
      winningHandOf (.fin (9007199254740991 / 9007199254740992)) = .fin 2 ∨
      winningHandOf (.fin (9007199254740991 / 9007199254740992)) = .fin 3) :=
  ⟨by decide!, by norm_num, by norm_num,
    (winningHandOf_range (9007199254740991 / 9007199254740992) (by decide!)
      (by norm_num) (by norm_num)).1⟩

/-! ## Validation in `playMonty` -/

/-- C7: a submission with no hand selected, or with a wager less than zero, is
rejected with an error message and no round is resolved: `totalRounds` and
`totalWins` are unchanged. -/
theorem playMonty_rejects (s : Stats) (form : FormInput) (random : JSNum)
    (h : form.selectedHand = none ∨ jsLt form.wagerAmount (.fin 0) = true) :
    ((playMonty s form random).1 = .chooseHandError ∨
      (playMonty s form random).1 = .negativeWagerError) ∧
    (form.selectedHand = none → (playMonty s form random).1 = .chooseHandError) ∧
    (∀ r, (playMonty s form random).1 ≠ .round r) ∧
    (playMonty s form random).2 = s := by
  obtain ⟨sel, w⟩ := form
  cases sel with
  | none => simp [playMonty]
  | some hand =>
    have hlt : jsLt w (.fin 0) = true := by simpa using h
    rw [playMonty_negative s hand w random hlt]
    simp

/-- C7 at a missing hand and at a wager of -5. -/
theorem playMonty_rejects_witness :
    (playMonty ⟨.fin 3, .fin 1⟩ ⟨none, .fin 10⟩ (.fin 0)).2 = ⟨.fin 3, .fin 1⟩ ∧
    (playMonty ⟨.fin 3, .fin 1⟩ ⟨some (.fin 1), .fin (-5)⟩ (.fin 0)).2 = ⟨.fin 3, .fin 1⟩ :=
  ⟨(playMonty_rejects ⟨.fin 3, .fin 1⟩ ⟨none, .fin 10⟩ (.fin 0) (Or.inl rfl)).2.2.2,
   (playMonty_rejects ⟨.fin 3, .fin 1⟩ ⟨some (.fin 1), .fin (-5)⟩ (.fin 0) (Or.inr (by decide!))).2.2.2⟩

/-- C8, as stated, fails: a wager text that is not a number, such as `abc`, gives
the wager `NaN`, which is not less than zero, so the round is resolved with a
wager that is not `>= 0`; and a selected hand whose value is `4` is resolved as
the pick 4, the "Unknown Hand". -/
theorem playMonty_resolves_unchecked :
    (playMonty initialStats ⟨some (.fin 1), .nan⟩ (.fin 0)).1
      = .round ⟨.fin 1, .fin 1, true, .nan, .nan, "Left Hand 🖐", "Left Hand 🖐",
          ⟨.fin 1, .fin 1, .fin 100⟩⟩ ∧
    jsGe .nan (.fin 0) = false ∧
    (playMonty initialStats ⟨some (.fin 4), .fin 10⟩ (.fin 0)).1
      = .round ⟨.fin 4, .fin 1, false, .fin 10, .fin (-10), "Unknown Hand", "Left Hand 🖐",
          ⟨.fin 1, .fin 0, .fin 0⟩⟩ ∧
    (JSNum.fin 4 ≠ .fin 1 ∧ JSNum.fin 4 ≠ .fin 2 ∧ JSNum.fin 4 ≠ .fin 3) := by
  refine ⟨by decide!, by decide!, by decide!, by decide!⟩

/-- C8, amended: whenever the round is resolved, a hand was selected and the wager
used is the one submitted and is not less than zero, so a wager that is a number
is `>= 0`; the pick used is the number of the selected hand, whatever it is. -/
theorem playMonty_resolved_input (s : Stats) (form : FormInput) (random : JSNum)
    (r : RoundResult) (h : (playMonty s form random).1 = .round r) :
    form.selectedHand = some r.playerHand ∧ r.wagerAmount = form.wagerAmount ∧
    jsLt r.wagerAmount (.fin 0) = false ∧
    (r.wagerAmount ≠ .nan → jsGe r.wagerAmount (.fin 0) = true) := by
  obtain ⟨sel, w⟩ := form
  cases sel with
  | none => simp [playMonty] at h
  | some hand =>
    by_cases hlt : jsLt w (.fin 0) = true
    · rw [playMonty_negative s hand w random hlt] at h
      simp at h
    · have hf : jsLt w (.fin 0) = false := by simpa using hlt
      rw [playMonty_round s hand w random hf] at h
      simp only [Shown.round.injEq] at h
      subst h
      exact ⟨rfl, rfl, hf, fun hn => jsGe_zero_of_not_lt hn hf⟩

/-- C8, amended, at pick 2, wager 5 and winning hand 3 after 7 rounds. -/
theorem playMonty_resolved_input_witness :
    (playMonty ⟨.fin 7, .fin 2⟩ ⟨some (.fin 2), .fin 5⟩ (.fin (3 / 4))).1
      = .round ⟨.fin 2, .fin 3, false, .fin 5, .fin (-5), "Middle Hand ✋", "Right Hand 🤚",
          ⟨.fin 8, .fin 2, .fin 25⟩⟩ ∧
    JSNum.fin 5 ≠ .nan ∧ jsLt (.fin 5) (.fin 0) = false ∧ jsGe (.fin 5) (.fin 0) = true :=
  have hr : (playMonty ⟨.fin 7, .fin 2⟩ ⟨some (.fin 2), .fin 5⟩ (.fin (3 / 4))).1
      = .round ⟨.fin 2, .fin 3, false, .fin 5, .fin (-5), "Middle Hand ✋", "Right Hand 🤚",
          ⟨.fin 8, .fin 2, .fin 25⟩⟩ := by decide!
  have h := playMonty_resolved_input ⟨.fin 7, .fin 2⟩ ⟨some (.fin 2), .fin 5⟩ (.fin (3 / 4)) _ hr
  ⟨hr, by decide, h.2.2.1, h.2.2.2 (by decide)⟩

end Monty

namespace Gate

/-! ## The security gate -/

/-- C9: `isFiveDigitZip` returns true exactly on the strings of 5 characters that are
all digits `0` to `9`, and false on every other string. -/
theorem isFiveDigitZip_iff (s : JSString) :
    (isFiveDigitZip s = true ↔ s.length = 5 ∧ ∀ c ∈ s, 48 ≤ c ∧ c ≤ 57) ∧
    (isFiveDigitZip s = false ↔ ¬ (s.length = 5 ∧ ∀ c ∈ s, 48 ≤ c ∧ c ≤ 57)) := by
  have h := isFiveDigitZip_true_iff s
  refine ⟨h, ?_⟩
  rw [← h]
  simp

theorem handleSecurityForm_eq (first last zip : JSString) :
    handleSecurityForm first last zip =
      if jsTrim first = [] ∨ jsTrim last = [] then .namesMissing
      else if 20 < (jsTrim first ++ [32] ++ jsTrim last).length then
        .nameTooLong (jsTrim first ++ [32] ++ jsTrim last).length
      else if isFiveDigitZip (jsTrim zip) = true then
        .secret (jsTrim first ++ [32] ++ jsTrim last) (jsTrim zip)
      else .zipInvalid := by
  unfold handleSecurityForm
  simp only [Bool.or_eq_true, beq_iff_eq, List.length_eq_zero, gt_iff_lt, Bool.not_eq_true',
    Bool.not_eq_true]
  by_cases h : isFiveDigitZip (jsTrim zip) = true
  · simp [h]
  · simp [h]

/-- C10: `handleSecurityForm` shows the secret message exactly when, after trimming,
both names are non-empty, the full name (first name, one space, last name) has at
most 20 characters and the ZIP code is 5 digits; otherwise it shows one of the
three validation errors. -/
theorem handleSecurityForm_secret_iff (first last zip : JSString) :
    ((∃ name code, handleSecurityForm first last zip = .secret name code) ↔
      (jsTrim first ≠ [] ∧ jsTrim last ≠ [] ∧
        (jsTrim first ++ [32] ++ jsTrim last).length ≤ 20 ∧
        (jsTrim zip).length = 5 ∧ ∀ c ∈ jsTrim zip, 48 ≤ c ∧ c ≤ 57)) ∧
    ((∃ name code, handleSecurityForm first last zip = .secret name code) →
      handleSecurityForm first last zip
        = .secret (jsTrim first ++ [32] ++ jsTrim last) (jsTrim zip)) ∧
    ((¬ ∃ name code, handleSecurityForm first last zip = .secret name code) →
      (handleSecurityForm first last zip = .namesMissing ∨
        handleSecurityForm first last zip
          = .nameTooLong (jsTrim first ++ [32] ++ jsTrim last).length ∨
        handleSecurityForm first last zip = .zipInvalid)) := by
  have hz := isFiveDigitZip_true_iff (jsTrim zip)
  rw [handleSecurityForm_eq]
  by_cases h1 : jsTrim first = []
  · simp [h1]
  by_cases h2 : jsTrim last = []
  · simp [h2]
  have h12 : ¬ (jsTrim first = [] ∨ jsTrim last = []) := by tauto
  rw [if_neg h12]
  by_cases h3 : 20 < (jsTrim first ++ [32] ++ jsTrim last).length
  · rw [if_pos h3]
    have h3n : ¬ (jsTrim first ++ [32] ++ jsTrim last).length ≤ 20 := by omega
    refine ⟨⟨?_, fun h => absurd h.2.2.1 h3n⟩, ?_, fun _ => Or.inr (Or.inl rfl)⟩
    · rintro ⟨_, _, h⟩; simp at h
    · rintro ⟨_, _, h⟩; simp at h
  rw [if_neg h3]
  have h3p : (jsTrim first ++ [32] ++ jsTrim last).length ≤ 20 := by omega
  by_cases h4 : isFiveDigitZip (jsTrim zip) = true
  · rw [if_pos h4]
    have h5 := hz.1 h4
    refine ⟨⟨fun _ => ⟨h1, h2, h3p, h5⟩, fun _ => ⟨_, _, rfl⟩⟩, fun _ => rfl, fun h => ?_⟩
    exact absurd ⟨_, _, rfl⟩ h
  · rw [if_neg h4]
    have h5 : ¬ ((jsTrim zip).length = 5 ∧ ∀ c ∈ jsTrim zip, 48 ≤ c ∧ c ≤ 57) :=
      fun h => h4 (hz.2 h)
    refine ⟨⟨?_, fun h => absurd h.2.2.2 h5⟩, ?_, fun _ => Or.inr (Or.inr rfl)⟩
    · rintro ⟨_, _, h⟩; simp at h
    · rintro ⟨_, _, h⟩; simp at h

end Gate
